import Mathlib

/-!
Shallow embedding of the parallel chunked event-log aggregation engine
(`place_analyzer.py`, in its `Week 1` and repository-root variants).

Records are CSV lines already split into fields (`Row`); the Python
`Counter` objects are modelled as association lists in insertion order;
exceptions (`IndexError` from `row[i]`, `StopIteration` from `next(f)` on an
empty file, `argparse.ArgumentTypeError` from range validation, and the
`IndexError` of `most_common(1)[0]` on an empty counter) are modelled with
`Except Err`.
-/

deriving instance DecidableEq for Except

namespace PlaceAnalyzer

/-- Error kinds of the engine, abstracting the Python exceptions:
`malformedInput` for the `StopIteration` of `next(f)` on an empty source,
`invalidRange` for the `ArgumentTypeError` of `validate_time_range`,
`indexError` for `IndexError` on `row[i]`, and `notFound` for the
`IndexError` of `most_common(1)[0]` on an empty table. -/
inductive Err where
  | malformedInput
  | invalidRange
  | indexError
  | notFound
deriving DecidableEq, Repr

/-- A record line, already split by `csv.reader` into its comma-delimited
fields.  A blank line yields the empty row. -/
abbrev Row := List String

/-- A Python `Counter`: an association list from field value to count, kept
in key-insertion order (Python dicts preserve insertion order). -/
abbrev FreqTable := List (String × Nat)

/-- Model of `counter[k] = counter[k] + n`: bump the entry of `k` if present,
otherwise append `(k, n)` at the end (new dict keys go last). -/
def addCount : FreqTable → String → Nat → FreqTable
  | [], k, n => [(k, n)]
  | (k', v) :: rest, k, n =>
      if k' = k then (k', v + n) :: rest else (k', v) :: addCount rest k n

/-- Model of `counter[k] += 1`. -/
def incr (t : FreqTable) (k : String) : FreqTable := addCount t k 1

/-- Model of reading `counter[k]`: `Counter.__missing__` returns `0` for an
absent key and does not insert anything. -/
def lookupCount : FreqTable → String → Nat
  | [], _ => 0
  | (k', v) :: rest, k => if k' = k then v else lookupCount rest k

/-- Total count stored with key `k` across all entries of the list. -/
def keySum (t : FreqTable) (k : String) : Nat :=
  ((t.filter (fun p => p.1 == k)).map Prod.snd).sum

/-- Sum of all counts of the table. -/
def totalCount (t : FreqTable) : Nat := (t.map Prod.snd).sum

/-- Model of `Counter.update(other)`: fold `self[k] = self[k] + n` over the
items of `other` in their insertion order. -/
def counterUpdate (t other : FreqTable) : FreqTable :=
  other.foldl (fun acc kv => addCount acc kv.1 kv.2) t

/-- Lexicographic comparison of character lists by code point, the order
Python uses for `str` comparison. -/
def strLeChars : List Char → List Char → Bool
  | [], _ => true
  | _ :: _, [] => false
  | a :: as, b :: bs =>
      if a.val < b.val then true
      else if a.val = b.val then strLeChars as bs
      else false

/-- Model of Python `a <= b` on strings: raw lexicographic comparison. -/
def strLe (a b : String) : Bool := strLeChars a.data b.data

/-- Timestamp inclusion test of the filter (`start_time <= timestamp <=
end_time`), inclusive at both ends. -/
def tsInRange (s e ts : String) : Bool := strLe s ts && strLe ts e

/-- Model of `row[i]` on a parsed CSV row: `IndexError` when out of range. -/
def getField (row : Row) (i : Nat) : Except Err String :=
  match row[i]? with
  | some x => .ok x
  | none => .error .indexError

/-- Loop body of `analyze_chunk` (`Week 1` variant): read `row[0]`, test the
inclusive string range, and on inclusion do `color_counter[row[2]] += 1` and
`pos_counter[row[3]] += 1`. -/
def processRow (s e : String) (acc : FreqTable × FreqTable) (row : Row) :
    Except Err (FreqTable × FreqTable) :=
  match getField row 0 with
  | .error err => .error err
  | .ok ts =>
      if tsInRange s e ts then
        match getField row 2 with
        | .error err => .error err
        | .ok c =>
            match getField row 3 with
            | .error err => .error err
            | .ok p => .ok (incr acc.1 c, incr acc.2 p)
      else .ok acc

/-- Loop of `analyze_chunk`: run the loop body over the rows, threading the
two counters; a raised error aborts the whole call. -/
def chunkFold (s e : String) (acc : FreqTable × FreqTable) :
    List Row → Except Err (FreqTable × FreqTable)
  | [] => .ok acc
  | row :: rest =>
      match processRow s e acc row with
      | .error err => .error err
      | .ok acc' => chunkFold s e acc' rest

/-- Model of `analyze_chunk(lines, start_time, end_time)` (`Week 1`
variant): fold the loop body over the chunk's rows starting from two empty
counters. -/
def analyze_chunk (lines : List Row) (s e : String) :
    Except Err (FreqTable × FreqTable) :=
  chunkFold s e ([], []) lines

/-- Loop body of `analyze_chunk` in the repository-root variant: the line
`pos_counter[row[3]]` evaluates `row[3]` (so it can still raise
`IndexError`) and reads the counter, but never stores anything. -/
def processRowRoot (s e : String) (acc : FreqTable × FreqTable) (row : Row) :
    Except Err (FreqTable × FreqTable) :=
  match getField row 0 with
  | .error err => .error err
  | .ok ts =>
      if tsInRange s e ts then
        match getField row 2 with
        | .error err => .error err
        | .ok c =>
            match getField row 3 with
            | .error err => .error err
            | .ok p =>
                let _ := lookupCount acc.2 p
                .ok (incr acc.1 c, acc.2)
      else .ok acc

/-- Loop of the repository-root `analyze_chunk`. -/
def chunkFoldRoot (s e : String) (acc : FreqTable × FreqTable) :
    List Row → Except Err (FreqTable × FreqTable)
  | [] => .ok acc
  | row :: rest =>
      match processRowRoot s e acc row with
      | .error err => .error err
      | .ok acc' => chunkFoldRoot s e acc' rest

/-- Model of `analyze_chunk` from the repository-root
`place_analyzer.py`, whose position-counter statement lacks `+= 1`. -/
def analyze_chunk_root (lines : List Row) (s e : String) :
    Except Err (FreqTable × FreqTable) :=
  chunkFoldRoot s e ([], []) lines

/-- Chunk-grouping loop of `analyze_parallel`: accumulate lines, emit the
buffer as a chunk once its length reaches `C`, and emit the leftover buffer
at end of input when non-empty. -/
def chunkifyGo (C : Nat) (buf : List Row) : List Row → List (List Row)
  | [] => if buf.isEmpty then [] else [buf]
  | x :: xs =>
      let buf' := buf ++ [x]
      if C ≤ buf'.length then buf' :: chunkifyGo C [] xs
      else chunkifyGo C buf' xs

/-- Chunks of the file body, in emission order. -/
def chunkify (C : Nat) (body : List Row) : List (List Row) :=
  chunkifyGo C [] body

/-- Dispatch of the chunk tasks and collection of their results in
submission order (`for t in tasks: t.get()`); any chunk failure aborts the
whole run. -/
def runChunks (s e : String) : List (List Row) → Except Err (List (FreqTable × FreqTable))
  | [] => .ok []
  | ch :: rest =>
      match analyze_chunk ch s e with
      | .error err => .error err
      | .ok r =>
          match runChunks s e rest with
          | .error err => .error err
          | .ok rs => .ok (r :: rs)

/-- Merge of one completed chunk result into the global accumulators:
`color_counter.update(...)` and `pos_counter.update(...)`. -/
def mergePair (acc r : FreqTable × FreqTable) : FreqTable × FreqTable :=
  (counterUpdate acc.1 r.1, counterUpdate acc.2 r.2)

/-- Fold of all chunk results into the global counters, in the order the
results are collected. -/
def mergeAll (rs : List (FreqTable × FreqTable)) : FreqTable × FreqTable :=
  rs.foldl mergePair ([], [])

/-- Default chunk capacity of the `Week 1` variant. -/
def CHUNK_SIZE : Nat := 200000

/-- Model of `analyze_parallel(filename, start_time, end_time)` with the
chunk capacity as a parameter: `next(f)` fails on an empty file and
otherwise discards the first line, the body is grouped into chunks, each
chunk is processed by `analyze_chunk`, and the results are merged in
submission order. -/
def analyze_parallel (file : List Row) (s e : String) (C : Nat) :
    Except Err (FreqTable × FreqTable) :=
  match file with
  | [] => .error .malformedInput
  | _hdr :: body =>
      match runChunks s e (chunkify C body) with
      | .error err => .error err
      | .ok rs => .ok (mergeAll rs)

/-- A Python `datetime` as produced by `strptime` with format
`%Y-%m-%d %H` (minute, second and microsecond all zero there, but kept as
fields because `datetime` carries and compares them). -/
structure PyDateTime where
  year : Nat
  month : Nat
  day : Nat
  hour : Nat
  minute : Nat
  second : Nat
  microsecond : Nat
deriving DecidableEq, Repr

/-- Comparison key of a `datetime`: Python compares the fields
lexicographically. -/
def dtKey (d : PyDateTime) : List Nat :=
  [d.year, d.month, d.day, d.hour, d.minute, d.second, d.microsecond]

/-- Model of `datetime` `<=`. -/
def dtLe (a b : PyDateTime) : Prop := dtKey a ≤ dtKey b

/-- Model of `datetime` `<`. -/
def dtLt (a b : PyDateTime) : Prop := dtKey a < dtKey b

instance : DecidablePred fun p : PyDateTime × PyDateTime => dtLe p.1 p.2 :=
  fun _ => inferInstanceAs (Decidable (_ ≤ _))

instance (a b : PyDateTime) : Decidable (dtLe a b) :=
  inferInstanceAs (Decidable (_ ≤ _))

instance (a b : PyDateTime) : Decidable (dtLt a b) :=
  inferInstanceAs (Decidable (_ < _))

/-- Zero-padding to width 2, as `strftime` `%m`, `%d`, `%H` do. -/
def pad2 (n : Nat) : String :=
  if n < 10 then "0" ++ toString n else toString n

/-- Zero-padding to width 4, as `strftime` `%Y` does. -/
def pad4 (n : Nat) : String :=
  if n < 10 then "000" ++ toString n
  else if n < 100 then "00" ++ toString n
  else if n < 1000 then "0" ++ toString n
  else toString n

/-- Model of `convert_date_format`: `strftime` with the literal format
`%Y-%m-%d %H:00:00.000000 UTC`, which writes the year, month, day and hour
and hard-codes zeros for minutes, seconds and microseconds. -/
def convert_date_format (d : PyDateTime) : String :=
  pad4 d.year ++ "-" ++ pad2 d.month ++ "-" ++ pad2 d.day ++ " " ++
    pad2 d.hour ++ ":00:00.000000 UTC"

/-- Model of `validate_time_range`: reject when `end_time <= start_time`,
otherwise return both bounds formatted by `convert_date_format`. -/
def validate_time_range (start_time end_time : PyDateTime) :
    Except Err (String × String) :=
  if dtLe end_time start_time then .error .invalidRange
  else .ok (convert_date_format start_time, convert_date_format end_time)

/-- Model of the `main` flow relevant to aggregation: validate the range
first, then (and only then) analyze the file. -/
def runMain (file : List Row) (startArg endArg : PyDateTime) (C : Nat) :
    Except Err (FreqTable × FreqTable) :=
  match validate_time_range startArg endArg with
  | .error err => .error err
  | .ok (s, e) => analyze_parallel file s e C

/-- Ranking relation of `most_common`: sort key is the count, descending. -/
def cntGe (a b : String × Nat) : Prop := b.2 ≤ a.2

instance : DecidableRel cntGe := fun a b => Nat.decLe b.2 a.2

instance : IsTotal (String × Nat) cntGe :=
  ⟨fun a b => Nat.le_total b.2 a.2⟩

instance : IsTrans (String × Nat) cntGe :=
  ⟨fun _ _ _ h1 h2 => Nat.le_trans h2 h1⟩

/-- Model of `Counter.most_common(k)`: a stable sort by count descending
(equal counts keep the order first encountered, as `heapq.nlargest`
documents), truncated to the first `k` entries. -/
def most_common (k : Nat) (t : FreqTable) : List (String × Nat) :=
  (List.insertionSort cntGe t).take k

/-- Model of `counter.most_common(1)[0]`: the `[0]` raises on an empty
result, which the design names `NotFoundError`. -/
def most_common_one (t : FreqTable) : Except Err (String × Nat) :=
  match most_common 1 t with
  | [] => .error .notFound
  | x :: _ => .ok x

/-- Whether a row's timestamp field exists and lies in the range. -/
def rowInRange (s e : String) (row : Row) : Bool :=
  match row.head? with
  | some ts => tsInRange s e ts
  | none => false

/-- Whether the loop body gets through a row without an `IndexError`: the
timestamp field must exist, and a row whose timestamp is in range must have
at least 4 fields. -/
def rowOk (s e : String) (row : Row) : Bool :=
  match row.head? with
  | none => false
  | some ts => if tsInRange s e ts then decide (4 ≤ row.length) else true

/-- Field `i` of a row, defaulting to the empty string. -/
def rowField (row : Row) (i : Nat) : String := row[i]?.getD ""

/-- Contribution of one row to the category count of key `k`. -/
def contribC (s e : String) (row : Row) (k : String) : Nat :=
  if rowInRange s e row ∧ row[2]? = some k then 1 else 0

instance (s e : String) (row : Row) (k : String) :
    Decidable (rowInRange s e row = true ∧ row[2]? = some k) :=
  inferInstanceAs (Decidable (_ ∧ _))

/-- Contribution of one row to the position count of key `k`. -/
def contribP (s e : String) (row : Row) (k : String) : Nat :=
  if rowInRange s e row ∧ row[3]? = some k then 1 else 0

/-! ### Counter algebra -/

theorem keySum_nil (j : String) : keySum [] j = 0 := rfl

theorem keySum_cons (p : String × Nat) (rest : FreqTable) (j : String) :
    keySum (p :: rest) j = (if p.1 = j then p.2 else 0) + keySum rest j := by
  by_cases h : p.1 = j
  · simp [keySum, List.filter_cons, h]
  · simp [keySum, List.filter_cons, h]

theorem lookupCount_addCount (t : FreqTable) (k : String) (n : Nat) (j : String) :
    lookupCount (addCount t k n) j = lookupCount t j + if k = j then n else 0 := by
  induction t with
  | nil =>
      by_cases h : k = j <;> simp [addCount, lookupCount, h]
  | cons p rest ih =>
      obtain ⟨k', v⟩ := p
      by_cases h1 : k' = k
      · subst h1
        by_cases h2 : k' = j <;> simp [addCount, lookupCount, h2]
      · by_cases h2 : k' = j
        · subst h2
          have hkj : ¬ k = k' := fun hh => h1 hh.symm
          simp [addCount, lookupCount, h1, hkj]
        · simp [addCount, lookupCount, h1, h2, ih]

theorem keySum_addCount (t : FreqTable) (k : String) (n : Nat) (j : String) :
    keySum (addCount t k n) j = keySum t j + if k = j then n else 0 := by
  induction t with
  | nil =>
      by_cases h : k = j <;> simp [addCount, keySum_cons, keySum_nil, h]
  | cons p rest ih =>
      obtain ⟨k', v⟩ := p
      by_cases h1 : k' = k
      · subst h1
        by_cases h2 : k' = j <;> simp [addCount, keySum_cons, h2] <;> omega
      · by_cases h2 : k' = j
        · subst h2
          have hkj : ¬ k = k' := fun hh => h1 hh.symm
          simp [addCount, keySum_cons, h1, hkj, ih]
        · simp [addCount, keySum_cons, h1, h2, ih]

theorem totalCount_nil : totalCount [] = 0 := rfl

theorem totalCount_cons (p : String × Nat) (rest : FreqTable) :
    totalCount (p :: rest) = p.2 + totalCount rest := by
  simp [totalCount]

theorem totalCount_addCount (t : FreqTable) (k : String) (n : Nat) :
    totalCount (addCount t k n) = totalCount t + n := by
  induction t with
  | nil => simp [addCount, totalCount]
  | cons p rest ih =>
      obtain ⟨k', v⟩ := p
      by_cases h : k' = k <;>
        simp [addCount, totalCount_cons, h, ih] <;> omega

theorem addCount_pos (t : FreqTable) (k : String) (n : Nat)
    (ht : ∀ kv ∈ t, 0 < kv.2) (hn : 0 < n) :
    ∀ kv ∈ addCount t k n, 0 < kv.2 := by
  induction t with
  | nil => simpa [addCount] using hn
  | cons p rest ih =>
      obtain ⟨k', v⟩ := p
      by_cases h : k' = k
      · subst h
        intro kv hkv
        simp [addCount] at hkv
        rcases hkv with h1 | h1
        · subst h1; have := ht (k', v) (by simp); simp at this ⊢; omega
        · exact ht kv (by simp [h1])
      · intro kv hkv
        simp [addCount, h] at hkv
        rcases hkv with h1 | h1
        · subst h1; exact ht (k', v) (by simp)
        · exact ih (fun kv h2 => ht kv (by simp [h2])) kv h1

theorem counterUpdate_nil (t : FreqTable) : counterUpdate t [] = t := rfl

theorem counterUpdate_cons (t : FreqTable) (p : String × Nat) (u : FreqTable) :
    counterUpdate t (p :: u) = counterUpdate (addCount t p.1 p.2) u := rfl

theorem lookupCount_counterUpdate (u t : FreqTable) (j : String) :
    lookupCount (counterUpdate t u) j = lookupCount t j + keySum u j := by
  induction u generalizing t with
  | nil => simp [counterUpdate_nil, keySum_nil]
  | cons p u ih =>
      rw [counterUpdate_cons, ih, lookupCount_addCount, keySum_cons]
      by_cases h : p.1 = j <;> simp [h] <;> omega

theorem keySum_counterUpdate (u t : FreqTable) (j : String) :
    keySum (counterUpdate t u) j = keySum t j + keySum u j := by
  induction u generalizing t with
  | nil => simp [counterUpdate_nil, keySum_nil]
  | cons p u ih =>
      rw [counterUpdate_cons, ih, keySum_addCount, keySum_cons]
      by_cases h : p.1 = j <;> simp [h] <;> omega

theorem totalCount_counterUpdate (u t : FreqTable) :
    totalCount (counterUpdate t u) = totalCount t + totalCount u := by
  induction u generalizing t with
  | nil => simp [counterUpdate_nil, totalCount_nil]
  | cons p u ih =>
      rw [counterUpdate_cons, ih, totalCount_addCount, totalCount_cons]
      omega

theorem counterUpdate_pos (u t : FreqTable)
    (ht : ∀ kv ∈ t, 0 < kv.2) (hu : ∀ kv ∈ u, 0 < kv.2) :
    ∀ kv ∈ counterUpdate t u, 0 < kv.2 := by
  induction u generalizing t with
  | nil => simpa [counterUpdate_nil] using ht
  | cons p u ih =>
      rw [counterUpdate_cons]
      exact ih _ (addCount_pos t p.1 p.2 ht (hu p (by simp)))
        (fun kv h => hu kv (by simp [h]))


/-! ### Row processing characterization -/

theorem getField_eq_ok (row : Row) (i : Nat) (h : i < row.length) :
    getField row i = .ok (rowField row i) := by
  have hx : row[i]? = some row[i] := List.getElem?_eq_getElem h
  simp [getField, rowField, hx]

theorem getField_eq_error (row : Row) (i : Nat) (h : row.length ≤ i) :
    getField row i = .error .indexError := by
  have hx : row[i]? = none := List.getElem?_eq_none h
  simp [getField, hx]

theorem rowInRange_cons (s e f0 : String) (rest : List String) :
    rowInRange s e (f0 :: rest) = tsInRange s e f0 := rfl

theorem processRow_eq_ok (s e : String) (acc : FreqTable × FreqTable) (row : Row)
    (h : rowOk s e row = true) :
    processRow s e acc row =
      .ok (if rowInRange s e row then
             (incr acc.1 (rowField row 2), incr acc.2 (rowField row 3))
           else acc) := by
  cases row with
  | nil => simp [rowOk] at h
  | cons f0 rest =>
      have h0 : getField (f0 :: rest) 0 = .ok f0 := by
        simp [getField]
      by_cases hr : tsInRange s e f0
      · have hlen : 4 ≤ (f0 :: rest).length := by
          simpa [rowOk, hr] using h
        have hg2 : getField (f0 :: rest) 2 = .ok (rowField (f0 :: rest) 2) :=
          getField_eq_ok _ _ (by omega)
        have hg3 : getField (f0 :: rest) 3 = .ok (rowField (f0 :: rest) 3) :=
          getField_eq_ok _ _ (by omega)
        simp [processRow, h0, hg2, hg3, rowInRange_cons, hr]
      · simp [processRow, h0, rowInRange_cons, hr]

theorem processRow_eq_error (s e : String) (acc : FreqTable × FreqTable) (row : Row)
    (h : rowOk s e row = false) :
    processRow s e acc row = .error .indexError := by
  cases row with
  | nil => rfl
  | cons f0 rest =>
      have h0 : getField (f0 :: rest) 0 = .ok f0 := by
        simp [getField]
      by_cases hr : tsInRange s e f0
      · have hOk : rowOk s e (f0 :: rest) = decide (4 ≤ (f0 :: rest).length) := by
          simp [rowOk, hr]
        rw [hOk] at h
        simp only [decide_eq_false_iff_not, List.length_cons] at h
        by_cases h2 : (f0 :: rest).length ≤ 2
        · have hg2 : getField (f0 :: rest) 2 = .error .indexError :=
            getField_eq_error _ _ h2
          simp [processRow, h0, hr, hg2]
        · simp only [List.length_cons] at h2
          have hg2 : getField (f0 :: rest) 2 = .ok (rowField (f0 :: rest) 2) :=
            getField_eq_ok _ _ (by simp only [List.length_cons]; omega)
          have hg3 : getField (f0 :: rest) 3 = .error .indexError :=
            getField_eq_error _ _ (by simp only [List.length_cons]; omega)
          simp [processRow, h0, hr, hg2, hg3]
      · simp [rowOk, hr] at h

theorem contribC_of_inRange (s e : String) (row : Row) (h4 : 4 ≤ row.length)
    (hr : rowInRange s e row = true) (j : String) :
    contribC s e row j = if rowField row 2 = j then 1 else 0 := by
  have hx : row[2]? = some (rowField row 2) := by
    have := List.getElem?_eq_getElem (show 2 < row.length by omega)
    simp [rowField, this]
  by_cases hj : rowField row 2 = j
  · simp [contribC, hr, hx, hj]
  · simp [contribC, hr, hx, hj]

theorem contribP_of_inRange (s e : String) (row : Row) (h4 : 4 ≤ row.length)
    (hr : rowInRange s e row = true) (j : String) :
    contribP s e row j = if rowField row 3 = j then 1 else 0 := by
  have hx : row[3]? = some (rowField row 3) := by
    have := List.getElem?_eq_getElem (show 3 < row.length by omega)
    simp [rowField, this]
  by_cases hj : rowField row 3 = j
  · simp [contribP, hr, hx, hj]
  · simp [contribP, hr, hx, hj]

theorem contribC_of_notInRange (s e : String) (row : Row)
    (hr : rowInRange s e row = false) (j : String) :
    contribC s e row j = 0 := by
  simp [contribC, hr]

theorem contribP_of_notInRange (s e : String) (row : Row)
    (hr : rowInRange s e row = false) (j : String) :
    contribP s e row j = 0 := by
  simp [contribP, hr]


/-! ### Chunk fold lemmas -/

theorem processRow_eq_counted (s e : String) (acc : FreqTable × FreqTable) (row : Row)
    (hok : rowOk s e row = true) (hr : rowInRange s e row = true) :
    processRow s e acc row =
      .ok (incr acc.1 (rowField row 2), incr acc.2 (rowField row 3)) := by
  cases row with
  | nil => simp [rowInRange] at hr
  | cons f0 rest =>
      rw [rowInRange_cons] at hr
      have h0 : getField (f0 :: rest) 0 = .ok f0 := by simp [getField]
      have h4 : 4 ≤ (f0 :: rest).length := by simpa [rowOk, hr] using hok
      have hg2 : getField (f0 :: rest) 2 = .ok (rowField (f0 :: rest) 2) :=
        getField_eq_ok _ _ (by simp only [List.length_cons] at h4 ⊢; omega)
      have hg3 : getField (f0 :: rest) 3 = .ok (rowField (f0 :: rest) 3) :=
        getField_eq_ok _ _ (by simp only [List.length_cons] at h4 ⊢; omega)
      simp [processRow, h0, hr, hg2, hg3]

theorem processRow_eq_skip (s e : String) (acc : FreqTable × FreqTable)
    (f0 : String) (rest : List String) (hr : tsInRange s e f0 = false) :
    processRow s e acc (f0 :: rest) = .ok acc := by
  have h0 : getField (f0 :: rest) 0 = .ok f0 := by simp [getField]
  simp [processRow, h0, hr]

theorem processRow_eq_uncounted (s e : String) (acc : FreqTable × FreqTable) (row : Row)
    (hok : rowOk s e row = true) (hr : rowInRange s e row = false) :
    processRow s e acc row = .ok acc := by
  cases row with
  | nil => simp [rowOk] at hok
  | cons f0 rest =>
      rw [rowInRange_cons] at hr
      exact processRow_eq_skip s e acc f0 rest hr

theorem row_four_of_ok_inRange (s e : String) (row : Row)
    (hok : rowOk s e row = true) (hr : rowInRange s e row = true) :
    4 ≤ row.length := by
  cases row with
  | nil => simp [rowInRange] at hr
  | cons f0 rest =>
      rw [rowInRange_cons] at hr
      simpa [rowOk, hr] using hok

theorem chunkFold_error_of_bad (s e : String) (rows : List Row) :
    ∀ acc row, row ∈ rows → rowOk s e row = false →
      chunkFold s e acc rows = .error .indexError := by
  induction rows with
  | nil =>
      intro acc row h
      simp at h
  | cons r rest ih =>
      intro acc row hmem hbad
      rcases List.mem_cons.mp hmem with h | h
      · subst h
        simp [chunkFold, processRow_eq_error s e acc row hbad]
      · cases hok : rowOk s e r with
        | false => simp [chunkFold, processRow_eq_error s e acc r hok]
        | true =>
            cases hr : rowInRange s e r with
            | true =>
                simp only [chunkFold, processRow_eq_counted s e acc r hok hr]
                exact ih _ row h hbad
            | false =>
                simp only [chunkFold, processRow_eq_uncounted s e acc r hok hr]
                exact ih _ row h hbad

theorem rowOk_of_chunkFold_ok (s e : String) (rows : List Row) (acc cp : FreqTable × FreqTable)
    (h : chunkFold s e acc rows = .ok cp) :
    ∀ row ∈ rows, rowOk s e row = true := by
  intro row hm
  cases hbad : rowOk s e row with
  | true => rfl
  | false =>
      rw [chunkFold_error_of_bad s e rows acc row hm hbad] at h
      simp at h

theorem chunkFold_ok_of_allOk (s e : String) (rows : List Row)
    (h : ∀ row ∈ rows, rowOk s e row = true) :
    ∀ acc, ∃ cp, chunkFold s e acc rows = .ok cp := by
  induction rows with
  | nil => exact fun acc => ⟨acc, rfl⟩
  | cons r rest ih =>
      intro acc
      have hok := h r (by simp)
      have hrest : ∀ row ∈ rest, rowOk s e row = true :=
        fun row hm => h row (List.mem_cons_of_mem _ hm)
      cases hr : rowInRange s e r with
      | true =>
          obtain ⟨cp, hcp⟩ :=
            ih hrest (incr acc.1 (rowField r 2), incr acc.2 (rowField r 3))
          exact ⟨cp, by simp [chunkFold, processRow_eq_counted s e acc r hok hr, hcp]⟩
      | false =>
          obtain ⟨cp, hcp⟩ := ih hrest acc
          exact ⟨cp, by simp [chunkFold, processRow_eq_uncounted s e acc r hok hr, hcp]⟩

theorem chunkFold_measure (μ : FreqTable → String → Nat)
    (hμ : ∀ t k n j, μ (addCount t k n) j = μ t j + if k = j then n else 0)
    (s e : String) (rows : List Row) :
    ∀ acc c p, chunkFold s e acc rows = .ok (c, p) →
      (∀ j, μ c j = μ acc.1 j + (rows.map (fun r => contribC s e r j)).sum) ∧
      (∀ j, μ p j = μ acc.2 j + (rows.map (fun r => contribP s e r j)).sum) := by
  induction rows with
  | nil =>
      intro acc c p h
      simp only [chunkFold, Except.ok.injEq] at h
      subst h
      simp
  | cons r rest ih =>
      intro acc c p h
      have hok : rowOk s e r = true :=
        rowOk_of_chunkFold_ok s e (r :: rest) acc (c, p) h r (by simp)
      cases hr : rowInRange s e r with
      | true =>
          rw [show chunkFold s e acc (r :: rest) =
                chunkFold s e (incr acc.1 (rowField r 2), incr acc.2 (rowField r 3)) rest by
              simp [chunkFold, processRow_eq_counted s e acc r hok hr]] at h
          obtain ⟨ih1, ih2⟩ := ih _ c p h
          have h4 : 4 ≤ r.length := row_four_of_ok_inRange s e r hok hr
          refine ⟨fun j => ?_, fun j => ?_⟩
          · rw [ih1]
            simp only [incr, hμ, List.map_cons, List.sum_cons,
              contribC_of_inRange s e r h4 hr j]
            by_cases hj : rowField r 2 = j <;> simp [hj] <;> omega
          · rw [ih2]
            simp only [incr, hμ, List.map_cons, List.sum_cons,
              contribP_of_inRange s e r h4 hr j]
            by_cases hj : rowField r 3 = j <;> simp [hj] <;> omega
      | false =>
          rw [show chunkFold s e acc (r :: rest) = chunkFold s e acc rest by
              simp [chunkFold, processRow_eq_uncounted s e acc r hok hr]] at h
          obtain ⟨ih1, ih2⟩ := ih _ c p h
          refine ⟨fun j => ?_, fun j => ?_⟩
          · rw [ih1]
            simp [contribC_of_notInRange s e r hr j]
          · rw [ih2]
            simp [contribP_of_notInRange s e r hr j]

theorem chunkFold_total (s e : String) (rows : List Row) :
    ∀ acc c p, chunkFold s e acc rows = .ok (c, p) →
      totalCount c = totalCount acc.1 + (rows.filter (fun r => rowInRange s e r)).length ∧
      totalCount p = totalCount acc.2 + (rows.filter (fun r => rowInRange s e r)).length := by
  induction rows with
  | nil =>
      intro acc c p h
      simp only [chunkFold, Except.ok.injEq] at h
      subst h
      simp
  | cons r rest ih =>
      intro acc c p h
      have hok : rowOk s e r = true :=
        rowOk_of_chunkFold_ok s e (r :: rest) acc (c, p) h r (by simp)
      cases hr : rowInRange s e r with
      | true =>
          rw [show chunkFold s e acc (r :: rest) =
                chunkFold s e (incr acc.1 (rowField r 2), incr acc.2 (rowField r 3)) rest by
              simp [chunkFold, processRow_eq_counted s e acc r hok hr]] at h
          obtain ⟨ih1, ih2⟩ := ih _ c p h
          rw [ih1, ih2]
          simp [incr, totalCount_addCount, List.filter_cons, hr]
          omega
      | false =>
          rw [show chunkFold s e acc (r :: rest) = chunkFold s e acc rest by
              simp [chunkFold, processRow_eq_uncounted s e acc r hok hr]] at h
          obtain ⟨ih1, ih2⟩ := ih _ c p h
          rw [ih1, ih2]
          simp [List.filter_cons, hr]

theorem chunkFold_pos (s e : String) (rows : List Row) :
    ∀ acc c p, chunkFold s e acc rows = .ok (c, p) →
      (∀ kv ∈ acc.1, 0 < kv.2) → (∀ kv ∈ acc.2, 0 < kv.2) →
      (∀ kv ∈ c, 0 < kv.2) ∧ (∀ kv ∈ p, 0 < kv.2) := by
  induction rows with
  | nil =>
      intro acc c p h h1 h2
      simp only [chunkFold, Except.ok.injEq] at h
      subst h
      exact ⟨h1, h2⟩
  | cons r rest ih =>
      intro acc c p h h1 h2
      have hok : rowOk s e r = true :=
        rowOk_of_chunkFold_ok s e (r :: rest) acc (c, p) h r (by simp)
      cases hr : rowInRange s e r with
      | true =>
          rw [show chunkFold s e acc (r :: rest) =
                chunkFold s e (incr acc.1 (rowField r 2), incr acc.2 (rowField r 3)) rest by
              simp [chunkFold, processRow_eq_counted s e acc r hok hr]] at h
          exact ih _ c p h (addCount_pos _ _ _ h1 (by omega))
            (addCount_pos _ _ _ h2 (by omega))
      | false =>
          rw [show chunkFold s e acc (r :: rest) = chunkFold s e acc rest by
              simp [chunkFold, processRow_eq_uncounted s e acc r hok hr]] at h
          exact ih _ c p h h1 h2

theorem chunkFold_skip_middle (s e : String) (row : Row)
    (hskip : ∀ acc, processRow s e acc row = .ok acc) :
    ∀ (l₁ l₂ : List Row) acc,
      chunkFold s e acc (l₁ ++ row :: l₂) = chunkFold s e acc (l₁ ++ l₂) := by
  intro l₁
  induction l₁ with
  | nil =>
      intro l₂ acc
      simp [chunkFold, hskip acc]
  | cons r l₁ ih =>
      intro l₂ acc
      cases hpr : processRow s e acc r with
      | error err => simp [chunkFold, hpr]
      | ok acc' => simp [chunkFold, hpr, ih l₂ acc']


/-! ### Chunk splitting and merging lemmas -/

theorem chunkifyGo_flatten (C : Nat) :
    ∀ (l buf : List Row), (chunkifyGo C buf l).flatten = buf ++ l := by
  intro l
  induction l with
  | nil =>
      intro buf
      cases hb : buf.isEmpty with
      | true =>
          have : buf = [] := List.isEmpty_iff.mp hb
          simp [chunkifyGo, hb, this]
      | false => simp [chunkifyGo, hb]
  | cons x xs ih =>
      intro buf
      by_cases h : C ≤ buf.length + 1
      · simp [chunkifyGo, h, ih []]
      · simp [chunkifyGo, h, ih (buf ++ [x])]

theorem chunkify_flatten (C : Nat) (body : List Row) :
    (chunkify C body).flatten = body := by
  simpa [chunkify] using chunkifyGo_flatten C body []

theorem mem_body_of_mem_chunkify (C : Nat) (body : List Row) (ch : List Row) (row : Row)
    (h1 : ch ∈ chunkify C body) (h2 : row ∈ ch) : row ∈ body := by
  have : row ∈ (chunkify C body).flatten := List.mem_flatten.mpr ⟨ch, h1, h2⟩
  rwa [chunkify_flatten] at this

theorem runChunks_rowOk (s e : String) :
    ∀ (chs : List (List Row)) rs, runChunks s e chs = .ok rs →
      ∀ ch ∈ chs, ∀ row ∈ ch, rowOk s e row = true := by
  intro chs
  induction chs with
  | nil =>
      intro rs _ ch hch
      simp at hch
  | cons ch rest ih =>
      intro rs h ch' hch' row hrow
      cases hc : analyze_chunk ch s e with
      | error err => simp [runChunks, hc] at h
      | ok r =>
          cases hrest : runChunks s e rest with
          | error err => simp [runChunks, hc, hrest] at h
          | ok rs' =>
              rcases List.mem_cons.mp hch' with hh | hh
              · subst hh
                exact rowOk_of_chunkFold_ok s e ch' ([], []) r hc row hrow
              · exact ih rs' hrest ch' hh row hrow

theorem runChunks_ok_of_all (s e : String) :
    ∀ chs : List (List Row), (∀ ch ∈ chs, ∃ r, analyze_chunk ch s e = .ok r) →
      ∃ rs, runChunks s e chs = .ok rs := by
  intro chs
  induction chs with
  | nil => exact fun _ => ⟨[], rfl⟩
  | cons ch rest ih =>
      intro h
      obtain ⟨r, hr⟩ := h ch (by simp)
      obtain ⟨rs, hrs⟩ := ih (fun ch' hm => h ch' (List.mem_cons_of_mem _ hm))
      exact ⟨r :: rs, by simp [runChunks, hr, hrs]⟩

theorem runChunks_keySum (s e : String) :
    ∀ (chs : List (List Row)) rs, runChunks s e chs = .ok rs → ∀ j,
      (rs.map (fun r => keySum r.1 j)).sum =
        (chs.map (fun ch => ((ch.map (fun row => contribC s e row j)).sum))).sum ∧
      (rs.map (fun r => keySum r.2 j)).sum =
        (chs.map (fun ch => ((ch.map (fun row => contribP s e row j)).sum))).sum := by
  intro chs
  induction chs with
  | nil =>
      intro rs h j
      simp only [runChunks, Except.ok.injEq] at h
      subst h
      simp
  | cons ch rest ih =>
      intro rs h j
      cases hc : analyze_chunk ch s e with
      | error err => simp [runChunks, hc] at h
      | ok r =>
          cases hrest : runChunks s e rest with
          | error err => simp [runChunks, hc, hrest] at h
          | ok rs' =>
              simp only [runChunks, hc, hrest, Except.ok.injEq] at h
              subst h
              obtain ⟨r1, r2⟩ := r
              obtain ⟨hk1, hk2⟩ :=
                chunkFold_measure keySum keySum_addCount s e ch ([], []) r1 r2 hc
              obtain ⟨ih1, ih2⟩ := ih rs' hrest j
              constructor
              · simp only [List.map_cons, List.sum_cons, ih1, hk1 j]
                simp [keySum_nil]
              · simp only [List.map_cons, List.sum_cons, ih2, hk2 j]
                simp [keySum_nil]

theorem runChunks_total (s e : String) :
    ∀ (chs : List (List Row)) rs, runChunks s e chs = .ok rs →
      (rs.map (fun r => totalCount r.1)).sum =
        (chs.map (fun ch => (ch.filter (fun row => rowInRange s e row)).length)).sum ∧
      (rs.map (fun r => totalCount r.2)).sum =
        (chs.map (fun ch => (ch.filter (fun row => rowInRange s e row)).length)).sum := by
  intro chs
  induction chs with
  | nil =>
      intro rs h
      simp only [runChunks, Except.ok.injEq] at h
      subst h
      simp
  | cons ch rest ih =>
      intro rs h
      cases hc : analyze_chunk ch s e with
      | error err => simp [runChunks, hc] at h
      | ok r =>
          cases hrest : runChunks s e rest with
          | error err => simp [runChunks, hc, hrest] at h
          | ok rs' =>
              simp only [runChunks, hc, hrest, Except.ok.injEq] at h
              subst h
              obtain ⟨r1, r2⟩ := r
              obtain ⟨ht1, ht2⟩ := chunkFold_total s e ch ([], []) r1 r2 hc
              obtain ⟨ih1, ih2⟩ := ih rs' hrest
              constructor
              · simp only [List.map_cons, List.sum_cons, ih1, ht1]
                simp [totalCount_nil]
              · simp only [List.map_cons, List.sum_cons, ih2, ht2]
                simp [totalCount_nil]

theorem runChunks_pos (s e : String) :
    ∀ (chs : List (List Row)) rs, runChunks s e chs = .ok rs →
      ∀ r ∈ rs, (∀ kv ∈ r.1, 0 < kv.2) ∧ (∀ kv ∈ r.2, 0 < kv.2) := by
  intro chs
  induction chs with
  | nil =>
      intro rs h r hr
      simp only [runChunks, Except.ok.injEq] at h
      subst h
      simp at hr
  | cons ch rest ih =>
      intro rs h r hr
      cases hc : analyze_chunk ch s e with
      | error err => simp [runChunks, hc] at h
      | ok r0 =>
          cases hrest : runChunks s e rest with
          | error err => simp [runChunks, hc, hrest] at h
          | ok rs' =>
              simp only [runChunks, hc, hrest, Except.ok.injEq] at h
              subst h
              rcases List.mem_cons.mp hr with hh | hh
              · subst hh
                obtain ⟨a, b⟩ := r
                exact chunkFold_pos s e ch ([], []) a b hc (by simp) (by simp)
              · exact ih rs' hrest r hh

theorem mergeFold_lookup (rs : List (FreqTable × FreqTable)) :
    ∀ acc (j : String),
      lookupCount (rs.foldl mergePair acc).1 j =
        lookupCount acc.1 j + (rs.map (fun r => keySum r.1 j)).sum ∧
      lookupCount (rs.foldl mergePair acc).2 j =
        lookupCount acc.2 j + (rs.map (fun r => keySum r.2 j)).sum := by
  induction rs with
  | nil => simp
  | cons r rest ih =>
      intro acc j
      obtain ⟨ih1, ih2⟩ := ih (mergePair acc r) j
      simp only [List.foldl_cons, List.map_cons, List.sum_cons, ih1, ih2]
      constructor
      · simp [mergePair, lookupCount_counterUpdate]
        omega
      · simp [mergePair, lookupCount_counterUpdate]
        omega

theorem mergeFold_total (rs : List (FreqTable × FreqTable)) :
    ∀ acc,
      totalCount (rs.foldl mergePair acc).1 =
        totalCount acc.1 + (rs.map (fun r => totalCount r.1)).sum ∧
      totalCount (rs.foldl mergePair acc).2 =
        totalCount acc.2 + (rs.map (fun r => totalCount r.2)).sum := by
  induction rs with
  | nil => simp
  | cons r rest ih =>
      intro acc
      obtain ⟨ih1, ih2⟩ := ih (mergePair acc r)
      simp only [List.foldl_cons, List.map_cons, List.sum_cons, ih1, ih2]
      constructor
      · simp [mergePair, totalCount_counterUpdate]
        omega
      · simp [mergePair, totalCount_counterUpdate]
        omega

theorem mergeFold_pos (rs : List (FreqTable × FreqTable)) :
    ∀ acc, (∀ kv ∈ acc.1, 0 < kv.2) → (∀ kv ∈ acc.2, 0 < kv.2) →
      (∀ r ∈ rs, (∀ kv ∈ r.1, 0 < kv.2) ∧ (∀ kv ∈ r.2, 0 < kv.2)) →
      (∀ kv ∈ (rs.foldl mergePair acc).1, 0 < kv.2) ∧
      (∀ kv ∈ (rs.foldl mergePair acc).2, 0 < kv.2) := by
  induction rs with
  | nil => exact fun acc h1 h2 _ => ⟨h1, h2⟩
  | cons r rest ih =>
      intro acc h1 h2 hrs
      simp only [List.foldl_cons]
      exact ih (mergePair acc r)
        (counterUpdate_pos _ _ h1 (hrs r (by simp)).1)
        (counterUpdate_pos _ _ h2 (hrs r (by simp)).2)
        (fun r' hm => hrs r' (List.mem_cons_of_mem _ hm))

theorem mergeAll_lookup (rs : List (FreqTable × FreqTable)) (j : String) :
    lookupCount (mergeAll rs).1 j = (rs.map (fun r => keySum r.1 j)).sum ∧
    lookupCount (mergeAll rs).2 j = (rs.map (fun r => keySum r.2 j)).sum := by
  simpa [mergeAll, lookupCount] using mergeFold_lookup rs ([], []) j


/-! ### Whole-aggregation characterization -/

theorem sum_over_chunks (chs : List (List Row)) (f : Row → Nat) :
    (chs.map (fun ch => ((ch.map f).sum))).sum = ((chs.flatten).map f).sum := by
  rw [show chs.map (fun ch => ((ch.map f).sum)) = (chs.map (List.map f)).map List.sum by
        rw [List.map_map]; rfl,
      ← List.sum_flatten, ← List.map_flatten]

theorem length_filter_over_chunks (chs : List (List Row)) (p : Row → Bool) :
    (chs.map (fun ch => (ch.filter p).length)).sum = ((chs.flatten).filter p).length := by
  rw [show chs.map (fun ch => (ch.filter p).length) = (chs.map (List.filter p)).map List.length by
        rw [List.map_map]; rfl,
      ← List.length_flatten, ← List.filter_flatten]

theorem analyze_parallel_ok_elim (hdr : Row) (body : List Row) (s e : String) (C : Nat)
    (gc gp : FreqTable) (h : analyze_parallel (hdr :: body) s e C = .ok (gc, gp)) :
    ∃ rs, runChunks s e (chunkify C body) = .ok rs ∧ mergeAll rs = (gc, gp) := by
  cases hrc : runChunks s e (chunkify C body) with
  | error err => simp [analyze_parallel, hrc] at h
  | ok rs =>
      simp only [analyze_parallel, hrc, Except.ok.injEq] at h
      exact ⟨rs, rfl, h⟩

theorem analyze_parallel_rowOk (hdr : Row) (body : List Row) (s e : String) (C : Nat)
    (gc gp : FreqTable) (h : analyze_parallel (hdr :: body) s e C = .ok (gc, gp)) :
    ∀ row ∈ body, rowOk s e row = true := by
  obtain ⟨rs, hrc, _⟩ := analyze_parallel_ok_elim hdr body s e C gc gp h
  intro row hm
  have hm' : row ∈ (chunkify C body).flatten := by rwa [chunkify_flatten]
  obtain ⟨ch, hch, hrow⟩ := List.mem_flatten.mp hm'
  exact runChunks_rowOk s e (chunkify C body) rs hrc ch hch row hrow

theorem analyze_parallel_lookup (hdr : Row) (body : List Row) (s e : String) (C : Nat)
    (gc gp : FreqTable) (h : analyze_parallel (hdr :: body) s e C = .ok (gc, gp)) (j : String) :
    lookupCount gc j = (body.map (fun r => contribC s e r j)).sum ∧
    lookupCount gp j = (body.map (fun r => contribP s e r j)).sum := by
  obtain ⟨rs, hrc, hm⟩ := analyze_parallel_ok_elim hdr body s e C gc gp h
  obtain ⟨hl1, hl2⟩ := mergeAll_lookup rs j
  rw [hm] at hl1 hl2
  obtain ⟨hk1, hk2⟩ := runChunks_keySum s e (chunkify C body) rs hrc j
  rw [hl1, hl2, hk1, hk2, sum_over_chunks, sum_over_chunks, chunkify_flatten]
  exact ⟨rfl, rfl⟩

theorem analyze_parallel_total (hdr : Row) (body : List Row) (s e : String) (C : Nat)
    (gc gp : FreqTable) (h : analyze_parallel (hdr :: body) s e C = .ok (gc, gp)) :
    totalCount gc = (body.filter (fun r => rowInRange s e r)).length ∧
    totalCount gp = (body.filter (fun r => rowInRange s e r)).length := by
  obtain ⟨rs, hrc, hm⟩ := analyze_parallel_ok_elim hdr body s e C gc gp h
  obtain ⟨ht1, ht2⟩ := mergeFold_total rs ([], [])
  obtain ⟨hq1, hq2⟩ := runChunks_total s e (chunkify C body) rs hrc
  have hma : rs.foldl mergePair ([], []) = (gc, gp) := hm
  rw [hma] at ht1 ht2
  simp only [totalCount_nil, Nat.zero_add] at ht1 ht2
  rw [ht1, ht2, hq1, hq2, length_filter_over_chunks, chunkify_flatten]
  exact ⟨rfl, rfl⟩

theorem analyze_parallel_ok_of_allOk (hdr : Row) (body : List Row) (s e : String) (C : Nat)
    (hall : ∀ row ∈ body, rowOk s e row = true) :
    ∃ gc gp, analyze_parallel (hdr :: body) s e C = .ok (gc, gp) := by
  have hch : ∀ ch ∈ chunkify C body, ∃ r, analyze_chunk ch s e = .ok r := by
    intro ch hchm
    exact chunkFold_ok_of_allOk s e ch
      (fun row hrow => hall row (mem_body_of_mem_chunkify C body ch row hchm hrow)) ([], [])
  obtain ⟨rs, hrs⟩ := runChunks_ok_of_all s e (chunkify C body) hch
  exact ⟨(mergeAll rs).1, (mergeAll rs).2, by simp [analyze_parallel, hrs]⟩

theorem analyze_chunk_lookup (rows : List Row) (s e : String) (c p : FreqTable)
    (h : analyze_chunk rows s e = .ok (c, p)) (j : String) :
    lookupCount c j = (rows.map (fun r => contribC s e r j)).sum ∧
    lookupCount p j = (rows.map (fun r => contribP s e r j)).sum := by
  obtain ⟨h1, h2⟩ := chunkFold_measure lookupCount lookupCount_addCount s e rows ([], []) c p h
  exact ⟨by simpa [lookupCount] using h1 j, by simpa [lookupCount] using h2 j⟩

theorem analyze_chunk_keySum (rows : List Row) (s e : String) (c p : FreqTable)
    (h : analyze_chunk rows s e = .ok (c, p)) (j : String) :
    keySum c j = (rows.map (fun r => contribC s e r j)).sum ∧
    keySum p j = (rows.map (fun r => contribP s e r j)).sum := by
  obtain ⟨h1, h2⟩ := chunkFold_measure keySum keySum_addCount s e rows ([], []) c p h
  exact ⟨by simpa [keySum_nil] using h1 j, by simpa [keySum_nil] using h2 j⟩

/-! ### Repository-root variant lemmas -/

theorem processRowRoot_snd (s e : String) (acc : FreqTable × FreqTable) (row : Row)
    (acc' : FreqTable × FreqTable) (h : processRowRoot s e acc row = .ok acc') :
    acc'.2 = acc.2 := by
  unfold processRowRoot at h
  cases hg0 : getField row 0 with
  | error err => simp [hg0] at h
  | ok ts =>
      rw [hg0] at h
      cases hr : tsInRange s e ts with
      | false =>
          simp only [hr, Bool.false_eq_true, if_false, Except.ok.injEq] at h
          rw [← h]
      | true =>
          simp only [hr, if_true] at h
          cases hg2 : getField row 2 with
          | error err => simp [hg2] at h
          | ok c =>
              rw [hg2] at h
              cases hg3 : getField row 3 with
              | error err => simp [hg3] at h
              | ok p =>
                  simp only [hg3, Except.ok.injEq] at h
                  rw [← h]

theorem chunkFoldRoot_snd (s e : String) (rows : List Row) :
    ∀ acc c p, chunkFoldRoot s e acc rows = .ok (c, p) → p = acc.2 := by
  induction rows with
  | nil =>
      intro acc c p h
      simp only [chunkFoldRoot, Except.ok.injEq] at h
      simp [h]
  | cons r rest ih =>
      intro acc c p h
      cases hpr : processRowRoot s e acc r with
      | error err => simp [chunkFoldRoot, hpr] at h
      | ok acc' =>
          simp only [chunkFoldRoot, hpr] at h
          rw [ih acc' c p h]
          exact processRowRoot_snd s e acc r acc' hpr


/-! ### Sorting stability lemmas -/

theorem filter_orderedInsert_eq (a : String × Nat) (c : Nat) (ha : a.2 = c) :
    ∀ l : FreqTable,
      (List.orderedInsert cntGe a l).filter (fun p => p.2 == c) =
        a :: l.filter (fun p => p.2 == c) := by
  intro l
  induction l with
  | nil => simp [List.orderedInsert, ha]
  | cons b t ih =>
      by_cases hr : cntGe a b
      · simp [List.orderedInsert, hr, ha]
      · have hb : ¬ b.2 = c := by
          simp only [cntGe, not_le] at hr
          omega
        simp [List.orderedInsert, hr, ih, hb]

theorem filter_orderedInsert_ne (a : String × Nat) (c : Nat) (ha : ¬ a.2 = c) :
    ∀ l : FreqTable,
      (List.orderedInsert cntGe a l).filter (fun p => p.2 == c) =
        l.filter (fun p => p.2 == c) := by
  intro l
  induction l with
  | nil => simp [List.orderedInsert, ha]
  | cons b t ih =>
      by_cases hr : cntGe a b
      · simp [List.orderedInsert, hr, ha]
      · simp only [List.orderedInsert, hr, if_false]
        rw [List.filter_cons, List.filter_cons, ih]

theorem filter_insertionSort (t : FreqTable) (c : Nat) :
    (List.insertionSort cntGe t).filter (fun p => p.2 == c) =
      t.filter (fun p => p.2 == c) := by
  induction t with
  | nil => simp
  | cons a t ih =>
      simp only [List.insertionSort]
      by_cases ha : a.2 = c
      · rw [filter_orderedInsert_eq a c ha, ih]
        simp [List.filter_cons, ha]
      · rw [filter_orderedInsert_ne a c ha, ih]
        simp [List.filter_cons, ha]

theorem strLeChars_refl : ∀ l : List Char, strLeChars l l = true := by
  intro l
  induction l with
  | nil => rfl
  | cons a t ih => simp [strLeChars, ih]

theorem strLe_refl (a : String) : strLe a a = true :=
  strLeChars_refl a.data

/-! ### Empty-result helper lemmas -/

theorem chunkFold_all_skip (s e : String) (rows : List Row)
    (h : ∀ row ∈ rows, ∀ acc0 : FreqTable × FreqTable, processRow s e acc0 row = .ok acc0) :
    ∀ acc, chunkFold s e acc rows = .ok acc := by
  induction rows with
  | nil => exact fun acc => rfl
  | cons r rest ih =>
      intro acc
      simp [chunkFold, h r (by simp) acc,
        ih (fun row hm => h row (List.mem_cons_of_mem _ hm)) acc]

theorem runChunks_all_empty (s e : String) :
    ∀ chs : List (List Row), (∀ ch ∈ chs, analyze_chunk ch s e = .ok ([], [])) →
      runChunks s e chs = .ok (chs.map (fun _ => (([], []) : FreqTable × FreqTable))) := by
  intro chs
  induction chs with
  | nil => exact fun _ => rfl
  | cons ch rest ih =>
      intro h
      simp [runChunks, h ch (by simp),
        ih (fun ch' hm => h ch' (List.mem_cons_of_mem _ hm))]

theorem mergeFold_id_of_empties (rs : List (FreqTable × FreqTable))
    (h : ∀ r ∈ rs, r = ([], [])) : ∀ acc, rs.foldl mergePair acc = acc := by
  induction rs with
  | nil => exact fun acc => rfl
  | cons r rest ih =>
      intro acc
      have hr : r = ([], []) := h r (by simp)
      have : mergePair acc r = acc := by
        rw [hr]
        simp [mergePair, counterUpdate_nil]
      simp only [List.foldl_cons, this]
      exact ih (fun r' hm => h r' (List.mem_cons_of_mem _ hm)) acc

theorem runChunks_lookup_eq_keySum (s e : String) :
    ∀ (chs : List (List Row)) rs, runChunks s e chs = .ok rs →
      ∀ r ∈ rs, ∀ j, lookupCount r.1 j = keySum r.1 j ∧ lookupCount r.2 j = keySum r.2 j := by
  intro chs
  induction chs with
  | nil =>
      intro rs h r hr
      simp only [runChunks, Except.ok.injEq] at h
      subst h
      simp at hr
  | cons ch rest ih =>
      intro rs h r hr
      cases hc : analyze_chunk ch s e with
      | error err => simp [runChunks, hc] at h
      | ok r0 =>
          cases hrest : runChunks s e rest with
          | error err => simp [runChunks, hc, hrest] at h
          | ok rs' =>
              simp only [runChunks, hc, hrest, Except.ok.injEq] at h
              subst h
              rcases List.mem_cons.mp hr with hh | hh
              · subst hh
                intro j
                obtain ⟨a, b⟩ := r
                obtain ⟨hl1, hl2⟩ := analyze_chunk_lookup ch s e a b hc j
                obtain ⟨hk1, hk2⟩ := analyze_chunk_keySum ch s e a b hc j
                exact ⟨by rw [hl1, hk1], by rw [hl2, hk2]⟩
              · exact ih rs' hrest r hh


/-! ### Claim theorems -/

/-- C8: the chunk splitter discards exactly one leading line (the header)
unconditionally — the result of `analyze_parallel` does not depend on the
header's content, and the emitted chunks reassemble exactly the body — and
aggregation on an empty source (no header line) fails with
`MalformedInputError`. -/
theorem header_and_empty_source (s e : String) (C : Nat) :
    analyze_parallel [] s e C = .error .malformedInput ∧
    (∀ (hdr hdr' : Row) (body : List Row),
       analyze_parallel (hdr :: body) s e C = analyze_parallel (hdr' :: body) s e C) ∧
    (∀ body : List Row, (chunkify C body).flatten = body) :=
  ⟨rfl, fun _ _ _ => rfl, fun body => chunkify_flatten C body⟩

/-- C9 counterexample: a malformed line (only 2 fields) with an in-range
timestamp embedded among valid records makes `analyze_chunk` raise an
`IndexError` instead of continuing without error, refuting the
skip-and-continue claim on this code. -/
theorem malformed_line_raises :
    analyze_chunk
      [["2022-04-01 13:00:00.000000 UTC", "u1", "A", "10,10"],
       ["2022-04-01 13:30:00.000000 UTC", "u2"],
       ["2022-04-01 14:00:00.000000 UTC", "u3", "B", "11,11"]]
      "2022-04-01 13:00:00.000000 UTC" "2022-04-01 15:00:00.000000 UTC"
      = .error .indexError := by decide

/-- C9 amended: chunk processing passes over a line (malformed or not) only
when its timestamp field is present and out of range, leaving all counts
unchanged; a chunk containing a line whose fields cannot all be read — a
blank line, or a line with fewer than 4 fields whose timestamp is in
range — makes the whole chunk fail with an `IndexError`. -/
theorem malformed_line_policy (s e : String) :
    (∀ (l₁ l₂ : List Row) (f0 : String) (rest : List String),
       tsInRange s e f0 = false →
       analyze_chunk (l₁ ++ (f0 :: rest) :: l₂) s e = analyze_chunk (l₁ ++ l₂) s e) ∧
    (∀ (rows : List Row) (row : Row), row ∈ rows → rowOk s e row = false →
       analyze_chunk rows s e = .error .indexError) := by
  constructor
  · intro l₁ l₂ f0 rest hr
    exact chunkFold_skip_middle s e (f0 :: rest)
      (fun acc => processRow_eq_skip s e acc f0 rest hr) l₁ l₂ ([], [])
  · intro rows row hm hbad
    exact chunkFold_error_of_bad s e rows ([], []) row hm hbad

theorem malformed_line_policy_witness :
    analyze_chunk ([["b", "u", "A", "p"]] ++ ("z" :: ["u"]) :: []) "a" "c" =
      analyze_chunk ([["b", "u", "A", "p"]] ++ []) "a" "c" ∧
    analyze_chunk [["b", "u"]] "a" "c" = .error .indexError :=
  ⟨(malformed_line_policy "a" "c").1 [["b", "u", "A", "p"]] [] "z" ["u"] (by decide),
   (malformed_line_policy "a" "c").2 [["b", "u"]] ["b", "u"] (by decide) (by decide)⟩

/-- C10: every entry of a frequency table returned by `analyze_chunk` or by
the merged `analyze_parallel` carries a strictly positive count, and in the
repository-root variant the bare `pos_counter[row[3]]` lookup never inserts
a key, so its position table stays empty. -/
theorem counts_positive (s e : String) :
    (∀ (rows : List Row) (c p : FreqTable), analyze_chunk rows s e = .ok (c, p) →
       (∀ kv ∈ c, 0 < kv.2) ∧ (∀ kv ∈ p, 0 < kv.2)) ∧
    (∀ (file : List Row) (C : Nat) (gc gp : FreqTable),
       analyze_parallel file s e C = .ok (gc, gp) →
       (∀ kv ∈ gc, 0 < kv.2) ∧ (∀ kv ∈ gp, 0 < kv.2)) ∧
    (∀ (rows : List Row) (c p : FreqTable), analyze_chunk_root rows s e = .ok (c, p) →
       p = []) := by
  refine ⟨?_, ?_, ?_⟩
  · intro rows c p h
    exact chunkFold_pos s e rows ([], []) c p h (by simp) (by simp)
  · intro file C gc gp h
    cases file with
    | nil => simp [analyze_parallel] at h
    | cons hdr body =>
        obtain ⟨rs, hrc, hm⟩ := analyze_parallel_ok_elim hdr body s e C gc gp h
        have hpos := mergeFold_pos rs ([], []) (by simp) (by simp)
          (runChunks_pos s e _ rs hrc)
        rw [show rs.foldl mergePair ([], []) = (gc, gp) from hm] at hpos
        exact hpos
  · intro rows c p h
    exact chunkFoldRoot_snd s e rows ([], []) c p h

theorem counts_positive_witness :
    analyze_chunk [["b", "u", "A", "p"]] "a" "c" = .ok ([("A", 1)], [("p", 1)]) ∧
    0 < (("A", 1) : String × Nat).2 ∧
    analyze_chunk_root [["b", "u", "A", "p"]] "a" "c" = .ok ([("A", 1)], []) :=
  ⟨by decide,
   ((counts_positive "a" "c").1 [["b", "u", "A", "p"]] [("A", 1)] [("p", 1)]
       (by decide)).1 ("A", 1) (by decide),
   by decide⟩

/-- C3: on a file whose single record is in range, the `Week 1`
`analyze_chunk` gives category and position tables that both sum to 1, but
the repository-root `analyze_chunk` — whose `pos_counter[row[3]]` statement
lacks `+= 1` — returns an empty position table, so there the position sum is
0 while the category sum is 1, breaking count conservation. -/
theorem root_variant_position_table_bug :
    analyze_chunk
        [["2022-04-01 13:00:00.000000 UTC", "u1", "A", "11,21"]]
        "2022-04-01 13:00:00.000000 UTC" "2022-04-01 15:00:00.000000 UTC"
      = .ok ([("A", 1)], [("11,21", 1)]) ∧
    analyze_chunk_root
        [["2022-04-01 13:00:00.000000 UTC", "u1", "A", "11,21"]]
        "2022-04-01 13:00:00.000000 UTC" "2022-04-01 15:00:00.000000 UTC"
      = .ok ([("A", 1)], []) ∧
    totalCount [("A", 1)] = 1 ∧
    totalCount ([] : FreqTable) = 0 := by
  refine ⟨by decide, by decide, rfl, rfl⟩


/-- C6: a range matching zero records yields empty category and position
tables, `most_common` on an empty table returns the empty sequence, and
asking for the single most frequent entry of an empty table yields
`NotFoundError`. -/
theorem empty_range_empty_result (s e : String) :
    (∀ (hdr : Row) (body : List Row) (C : Nat),
       (∀ row ∈ body, row ≠ [] ∧ rowInRange s e row = false) →
       analyze_parallel (hdr :: body) s e C = .ok ([], [])) ∧
    (∀ k : Nat, most_common k ([] : FreqTable) = []) ∧
    most_common_one ([] : FreqTable) = .error .notFound := by
  refine ⟨?_, ?_, rfl⟩
  · intro hdr body C hbody
    have hchunk : ∀ ch ∈ chunkify C body, analyze_chunk ch s e = .ok ([], []) := by
      intro ch hch
      refine chunkFold_all_skip s e ch (fun row hrow acc0 => ?_) ([], [])
      obtain ⟨hne, hnr⟩ := hbody row (mem_body_of_mem_chunkify C body ch row hch hrow)
      cases row with
      | nil => exact absurd rfl hne
      | cons f0 rest =>
          rw [rowInRange_cons] at hnr
          exact processRow_eq_skip s e acc0 f0 rest hnr
    have hrun := runChunks_all_empty s e (chunkify C body) hchunk
    have hmerge : mergeAll ((chunkify C body).map
        (fun _ => (([], []) : FreqTable × FreqTable))) = ([], []) :=
      mergeFold_id_of_empties _
        (by
          intro r hr
          obtain ⟨_, _, hx⟩ := List.mem_map.mp hr
          exact hx.symm)
        ([], [])
    simp only [analyze_parallel, hrun]
    rw [hmerge]
  · intro k
    simp [most_common]

theorem empty_range_empty_result_witness :
    analyze_parallel [["h"], ["z", "u", "A", "p"]] "a" "c" 3 = .ok ([], []) :=
  (empty_range_empty_result "a" "c").1 ["h"] [["z", "u", "A", "p"]] 3 (by decide)

/-- C7: `validate_time_range` rejects with `InvalidRangeError` exactly when
`end ≤ start` (as datetimes), and then `main` fails before looking at the
file; when `start < end` it returns both bounds rendered by
`convert_date_format`, whose output ignores the minute, second and
microsecond fields and always ends in `:00:00.000000 UTC` — hour
granularity in the canonical format. -/
theorem range_validation_contract (a b : PyDateTime) (file file' : List Row) (C : Nat) :
    (validate_time_range a b = .error .invalidRange ↔ dtLe b a) ∧
    (dtLt a b → validate_time_range a b =
       .ok (convert_date_format a, convert_date_format b)) ∧
    (dtLe b a → runMain file a b C = .error .invalidRange ∧
       runMain file a b C = runMain file' a b C) ∧
    (∀ mi se us : Nat,
       convert_date_format ⟨a.year, a.month, a.day, a.hour, mi, se, us⟩ =
         convert_date_format a) ∧
    (∃ dayHour : String, convert_date_format a = dayHour ++ ":00:00.000000 UTC") := by
  refine ⟨⟨?_, ?_⟩, ?_, ?_, fun mi se us => rfl, ⟨_, rfl⟩⟩
  · intro h
    by_cases hle : dtLe b a
    · exact hle
    · simp [validate_time_range, hle] at h
  · intro hle
    simp [validate_time_range, hle]
  · intro hlt
    have hnle : ¬ dtLe b a := by
      simp only [dtLe, dtLt] at hlt ⊢
      exact not_le.mpr hlt
    simp [validate_time_range, hnle]
  · intro hle
    constructor
    · simp [runMain, validate_time_range, hle]
    · simp [runMain, validate_time_range, hle]

theorem range_validation_contract_witness :
    validate_time_range ⟨2022, 4, 1, 13, 0, 0, 0⟩ ⟨2022, 4, 1, 15, 0, 0, 0⟩ =
      .ok (convert_date_format ⟨2022, 4, 1, 13, 0, 0, 0⟩,
           convert_date_format ⟨2022, 4, 1, 15, 0, 0, 0⟩) ∧
    convert_date_format ⟨2022, 4, 1, 13, 0, 0, 0⟩ = "2022-04-01 13:00:00.000000 UTC" ∧
    runMain [] ⟨2022, 4, 1, 15, 0, 0, 0⟩ ⟨2022, 4, 1, 13, 0, 0, 0⟩ 1 = .error .invalidRange :=
  ⟨(range_validation_contract ⟨2022, 4, 1, 13, 0, 0, 0⟩ ⟨2022, 4, 1, 15, 0, 0, 0⟩
      [] [] 1).2.1 (by decide),
   by decide,
   ((range_validation_contract ⟨2022, 4, 1, 15, 0, 0, 0⟩ ⟨2022, 4, 1, 13, 0, 0, 0⟩
      [] [] 1).2.2.1 (by decide)).1⟩

/-- C2: a record line with at least the four required fields is counted —
one increment in each table — exactly when `start ≤ timestamp ≤ end` under
the raw lexicographic string comparison `strLe`, with both boundaries
included: a timestamp equal to `start` or to `end` is counted. -/
theorem filter_inclusive (s e : String) (acc : FreqTable × FreqTable) (row : Row)
    (ts : String) (h0 : row[0]? = some ts) (h4 : 4 ≤ row.length) :
    ∃ acc', processRow s e acc row = .ok acc' ∧
      totalCount acc'.1 = totalCount acc.1 + (if tsInRange s e ts then 1 else 0) ∧
      totalCount acc'.2 = totalCount acc.2 + (if tsInRange s e ts then 1 else 0) ∧
      tsInRange s e ts = (strLe s ts && strLe ts e) ∧
      (ts = s → strLe ts e = true → totalCount acc'.1 = totalCount acc.1 + 1) ∧
      (ts = e → strLe s ts = true → totalCount acc'.1 = totalCount acc.1 + 1) := by
  obtain ⟨f0, rest, rfl⟩ : ∃ f0 rest, row = f0 :: rest := by
    cases row with
    | nil => simp at h0
    | cons f0 rest => exact ⟨f0, rest, rfl⟩
  have hf0 : f0 = ts := by simpa using h0
  subst hf0
  cases hr : tsInRange s e f0 with
  | true =>
      have h4' : 3 ≤ rest.length := by simpa using h4
      have hok : rowOk s e (f0 :: rest) = true := by
        simp [rowOk, hr, h4']
      refine ⟨_, processRow_eq_counted s e acc (f0 :: rest) hok
          (by rw [rowInRange_cons]; exact hr), ?_, ?_, hr.symm, ?_, ?_⟩
      · simp [incr, totalCount_addCount, hr]
      · simp [incr, totalCount_addCount, hr]
      · intro _ _
        simp [incr, totalCount_addCount]
      · intro _ _
        simp [incr, totalCount_addCount]
  | false =>
      refine ⟨acc, processRow_eq_skip s e acc f0 rest hr, by simp [hr], by simp [hr],
        hr.symm, ?_, ?_⟩
      · intro hts hse
        rw [hts] at hr hse
        simp [tsInRange, strLe_refl, hse] at hr
      · intro hts hse
        rw [hts] at hr hse
        simp [tsInRange, strLe_refl, hse] at hr

theorem filter_inclusive_witness :
    ∃ acc', processRow "b" "d" (([], []) : FreqTable × FreqTable) ["b", "u", "A", "p"]
        = .ok acc' ∧
      totalCount acc'.1 =
        totalCount (([], []) : FreqTable × FreqTable).1 + (if tsInRange "b" "d" "b" then 1 else 0) ∧
      totalCount acc'.2 =
        totalCount (([], []) : FreqTable × FreqTable).2 + (if tsInRange "b" "d" "b" then 1 else 0) ∧
      tsInRange "b" "d" "b" = (strLe "b" "b" && strLe "b" "d") ∧
      ("b" = "b" → strLe "b" "d" = true →
        totalCount acc'.1 = totalCount (([], []) : FreqTable × FreqTable).1 + 1) ∧
      ("b" = "d" → strLe "b" "b" = true →
        totalCount acc'.1 = totalCount (([], []) : FreqTable × FreqTable).1 + 1) :=
  filter_inclusive "b" "d" ([], []) ["b", "u", "A", "p"] "b" (by decide) (by decide)

/-- C5: `most_common k` lists entries in descending order of count, breaks
equal counts by the order the values first appear in the table (its
insertion order), is the `k`-prefix of the full ranking, and returns the
whole table (as a permutation) when the table has at most `k` entries. -/
theorem topk_ranking (t : FreqTable) (k : Nat) :
    List.Sorted cntGe (most_common k t) ∧
    (∀ c : Nat, (most_common t.length t).filter (fun p => p.2 == c) =
       t.filter (fun p => p.2 == c)) ∧
    most_common k t = (most_common t.length t).take k ∧
    (t.length ≤ k → (most_common k t).Perm t) ∧
    (most_common k t).length = min k t.length := by
  have hlen : (List.insertionSort cntGe t).length = t.length :=
    List.length_insertionSort cntGe t
  have hfull : most_common t.length t = List.insertionSort cntGe t := by
    rw [most_common, ← hlen, List.take_length]
  have hsorted := List.sorted_insertionSort cntGe t
  refine ⟨?_, ?_, ?_, ?_, ?_⟩
  · exact hsorted.sublist (List.take_sublist ..)
  · intro c
    rw [hfull]
    exact filter_insertionSort t c
  · rw [hfull, most_common]
  · intro hk
    rw [most_common, List.take_of_length_le (by rw [hlen]; exact hk)]
    exact List.perm_insertionSort cntGe t
  · rw [most_common, List.length_take, hlen]

theorem topk_ranking_witness :
    (most_common 5 [("A", 1), ("B", 2)]).Perm [("A", 1), ("B", 2)] ∧
    List.Sorted cntGe (most_common 5 [("A", 1), ("B", 2)]) :=
  ⟨(topk_ranking [("A", 1), ("B", 2)] 5).2.2.2.1 (by decide),
   (topk_ranking [("A", 1), ("B", 2)] 5).1⟩

/-- C4: on the header plus five hourly records with categories A,A,B,A,C,
aggregating over the inclusive range 13:00 – 15:00 yields the category
table `{A: 2, B: 1}`, and the top-1 query on that table returns
`[("A", 2)]`. -/
theorem scenario_hourly_topk :
    analyze_parallel
        [["timestamp", "user_id", "pixel_color", "coordinate"],
         ["2022-04-01 12:00:00.000000 UTC", "u1", "A", "10,10"],
         ["2022-04-01 13:00:00.000000 UTC", "u2", "A", "11,11"],
         ["2022-04-01 14:00:00.000000 UTC", "u3", "B", "12,12"],
         ["2022-04-01 15:00:00.000000 UTC", "u4", "A", "13,13"],
         ["2022-04-01 16:00:00.000000 UTC", "u5", "C", "14,14"]]
        "2022-04-01 13:00:00.000000 UTC" "2022-04-01 15:00:00.000000 UTC" CHUNK_SIZE
      = .ok ([("A", 2), ("B", 1)], [("11,11", 1), ("12,12", 1), ("13,13", 1)]) ∧
    most_common 1 [("A", 2), ("B", 1)] = [("A", 2)] :=
  ⟨by decide, by decide⟩


/-- C1: when a parallel aggregation succeeds, its merged tables agree
pointwise with a sequential single pass over the whole file body; each
merged count equals the sum of the per-chunk partial counts (absent keys
counting as zero); folding the partial results in any order yields the same
tables; and any other chunk size also succeeds and yields the same
tables. -/
theorem merged_equals_sequential (hdr : Row) (body : List Row) (s e : String)
    (C C' : Nat) (gc gp : FreqTable)
    (h : analyze_parallel (hdr :: body) s e C = .ok (gc, gp)) :
    (∃ sc sp, analyze_chunk body s e = .ok (sc, sp) ∧
       (∀ k, lookupCount gc k = lookupCount sc k) ∧
       (∀ k, lookupCount gp k = lookupCount sp k)) ∧
    (∀ rs, runChunks s e (chunkify C body) = .ok rs →
       (∀ k, lookupCount gc k = (rs.map (fun r => lookupCount r.1 k)).sum) ∧
       (∀ k, lookupCount gp k = (rs.map (fun r => lookupCount r.2 k)).sum) ∧
       (∀ rs', rs.Perm rs' →
          (∀ k, lookupCount (mergeAll rs').1 k = lookupCount gc k) ∧
          (∀ k, lookupCount (mergeAll rs').2 k = lookupCount gp k))) ∧
    (∃ gc' gp', analyze_parallel (hdr :: body) s e C' = .ok (gc', gp') ∧
       (∀ k, lookupCount gc' k = lookupCount gc k) ∧
       (∀ k, lookupCount gp' k = lookupCount gp k)) := by
  have hall := analyze_parallel_rowOk hdr body s e C gc gp h
  refine ⟨?_, ?_, ?_⟩
  · obtain ⟨scp, hscp⟩ := chunkFold_ok_of_allOk s e body hall ([], [])
    obtain ⟨sc, sp⟩ := scp
    refine ⟨sc, sp, hscp, fun k => ?_, fun k => ?_⟩
    · rw [(analyze_parallel_lookup hdr body s e C gc gp h k).1,
        (analyze_chunk_lookup body s e sc sp hscp k).1]
    · rw [(analyze_parallel_lookup hdr body s e C gc gp h k).2,
        (analyze_chunk_lookup body s e sc sp hscp k).2]
  · intro rs hrs
    obtain ⟨rs₀, hrc, hm⟩ := analyze_parallel_ok_elim hdr body s e C gc gp h
    have hrseq : rs₀ = rs := Except.ok.inj (hrc.symm.trans hrs)
    subst hrseq
    have hlkq := runChunks_lookup_eq_keySum s e (chunkify C body) rs₀ hrc
    have hgc : ∀ k, lookupCount gc k = (rs₀.map (fun r => keySum r.1 k)).sum := by
      intro k
      have hx := (mergeAll_lookup rs₀ k).1
      rw [hm] at hx
      exact hx
    have hgp : ∀ k, lookupCount gp k = (rs₀.map (fun r => keySum r.2 k)).sum := by
      intro k
      have hx := (mergeAll_lookup rs₀ k).2
      rw [hm] at hx
      exact hx
    refine ⟨fun k => ?_, fun k => ?_, fun rs' hperm => ⟨fun k => ?_, fun k => ?_⟩⟩
    · rw [hgc k, List.map_congr_left (fun r hr => ((hlkq r hr k).1).symm)]
    · rw [hgp k, List.map_congr_left (fun r hr => ((hlkq r hr k).2).symm)]
    · rw [(mergeAll_lookup rs' k).1, hgc k]
      exact ((hperm.map (fun r => keySum r.1 k)).sum_eq).symm
    · rw [(mergeAll_lookup rs' k).2, hgp k]
      exact ((hperm.map (fun r => keySum r.2 k)).sum_eq).symm
  · obtain ⟨gc', gp', h'⟩ := analyze_parallel_ok_of_allOk hdr body s e C' hall
    refine ⟨gc', gp', h', fun k => ?_, fun k => ?_⟩
    · rw [(analyze_parallel_lookup hdr body s e C' gc' gp' h' k).1,
        (analyze_parallel_lookup hdr body s e C gc gp h k).1]
    · rw [(analyze_parallel_lookup hdr body s e C' gc' gp' h' k).2,
        (analyze_parallel_lookup hdr body s e C gc gp h k).2]

theorem merged_equals_sequential_witness :
    analyze_parallel [["hdr"], ["b", "u", "A", "p1"], ["b2", "u", "A", "p2"]] "a" "c" 1
      = .ok ([("A", 2)], [("p1", 1), ("p2", 1)]) ∧
    (∃ sc sp, analyze_chunk [["b", "u", "A", "p1"], ["b2", "u", "A", "p2"]] "a" "c"
        = .ok (sc, sp) ∧
       (∀ k, lookupCount [("A", 2)] k = lookupCount sc k) ∧
       (∀ k, lookupCount [("p1", 1), ("p2", 1)] k = lookupCount sp k)) :=
  ⟨by decide,
   (merged_equals_sequential ["hdr"] [["b", "u", "A", "p1"], ["b2", "u", "A", "p2"]]
      "a" "c" 1 2 [("A", 2)] [("p1", 1), ("p2", 1)] (by decide)).1⟩


end PlaceAnalyzer
